import Mathlib

/-!
Verification of the `commander` dataflow library (src/commander.py,
src/dataflow.py, src/subprocess2.py) against its natural-language
specification.  Each Python function relevant to the claims is shallowly
embedded as an executable Lean definition; the theorems below settle the
claims.
-/

/-! ## Items

An item flowing through a feed/read boundary is either a Python `str` or an
arbitrary non-string value.  For a non-string value `x` the code only ever
uses its textual rendering `'%s' % x`, so we carry that rendering directly.
-/

/-- An item of a data stream: a string, or a non-string value carrying its
textual representation (what `'%s' % x` would produce). -/
inductive ItemV where
  | str (s : String)
  | val (r : String)
deriving DecidableEq, Repr

/-- The conversion applied by `feed`'s write branch and by
`_RawIterIO.sourcereader`: a string passes through unchanged, a non-string
value `x` becomes `'%s\n' % x`. -/
def render : ItemV → String
  | .str s => s
  | .val r => r ++ "\n"

/-! ## The `feed` dispatcher (src/commander.py lines 291-309, identical
dispatch in src/dataflow.py lines 102-120)

A sink is modelled by its observable capabilities:
  * `hasFeed`   — `hasattr(sink, '__feed__')`
  * `ty`        — the exact Python type, as far as the registry cares:
                  exactly `list`/`set`/`NoneType`, a strict subclass of one
                  of those, or anything else
  * `callable`  — `callable(sink)`
  * `hasWrite`  — `hasattr(sink, 'write')`
-/

/-- The three types registered in `feed_registry`
(src/commander.py lines 326-330): `list`, `set`, `type(None)`. -/
inductive SinkBase where
  | listB
  | setB
  | noneB
deriving DecidableEq, Repr

/-- The exact type of a sink, as far as feed dispatch can observe it:
exactly a registered type, a strict subclass of a registered type, or any
other type. -/
inductive SinkType where
  | exact (b : SinkBase)
  | subclass (b : SinkBase)
  | otherT
deriving DecidableEq, Repr

/-- Capability record of a sink object. -/
structure Sink where
  hasFeed : Bool
  ty : SinkType
  callable : Bool
  hasWrite : Bool
deriving DecidableEq, Repr

/-- The membership test `type(sink) in feed_registry`: true exactly when the
exact type is one of the registered types.  A strict subclass is not a key
of the dictionary. -/
def inRegistry : SinkType → Bool
  | .exact _ => true
  | _ => false

/-- The observable effect of one `feed(sink, source)` call. -/
inductive FeedEffect where
  /-- `sink.__feed__(source)`: the whole stream is delegated in one call. -/
  | delegated (src : List ItemV)
  /-- `feed_list`: `l[:] = source` (list contents replaced). -/
  | listReplace (src : List ItemV)
  /-- `feed_set`: `s.clear(); s.update(source)` (set contents replaced). -/
  | setReplace (src : List ItemV)
  /-- `feed_null`: the source is drained to the bit bucket. -/
  | nullDrain
  /-- the callable branch: `sink(x)` once per item, in stream order. -/
  | calls (src : List ItemV)
  /-- the write branch: `sink.write(x)` per item, non-strings rendered as
  `'%s\n' % x` first. -/
  | writes (out : List String)
  /-- `TypeError: ... not a valid data sink`. -/
  | badSink
deriving DecidableEq, Repr

/-- Shallow embedding of `feed` (src/commander.py lines 291-309; the
dispatch in src/dataflow.py lines 102-120 is textually identical).  The
branch order is the source's: `__feed__`, then the registry
(`type(sink) in feed_registry`), then `callable(sink)`, then
`hasattr(sink, 'write')`, else `TypeError`. -/
def feed (s : Sink) (src : List ItemV) : FeedEffect :=
  if s.hasFeed then .delegated src
  else
    match s.ty with
    | .exact .listB => .listReplace src
    | .exact .setB => .setReplace src
    | .exact .noneB => .nullDrain
    | _ =>
      if s.callable then .calls src
      else if s.hasWrite then .writes (src.map render)
      else .badSink

/-- Modelled from the spec's words, for comparison with `feed`: the
dispatch order the specification states as normative — whole-stream
capability, then callability, then the container table, then
byte-writability. -/
def specOrderFeed (s : Sink) (src : List ItemV) : FeedEffect :=
  if s.hasFeed then .delegated src
  else if s.callable then .calls src
  else
    match s.ty with
    | .exact .listB => .listReplace src
    | .exact .setB => .setReplace src
    | .exact .noneB => .nullDrain
    | _ =>
      if s.hasWrite then .writes (src.map render)
      else .badSink

/-- Test whether an effect is one of the three container-table behaviours. -/
def isContainerEffect : FeedEffect → Bool
  | .listReplace _ => true
  | .setReplace _ => true
  | .nullDrain => true
  | _ => false

/-- C1: feed dispatch follows the spec's normative order.  The code probes
the container registry before callability, but a Python object whose exact
type is `list`, `set` or `NoneType` is never callable (hypothesis `h`), so
on every realizable sink the code's dispatch coincides with the
spec-ordered dispatch; a sink with `__feed__` is delegated to in one call;
and a sink that is both callable and write-capable takes the callable path
— one call per item — and never the write path. -/
theorem feed_dispatch_order (s : Sink) (src : List ItemV)
    (h : inRegistry s.ty = true → s.callable = false) :
    feed s src = specOrderFeed s src ∧
    (s.hasFeed = true → feed s src = .delegated src) ∧
    (s.hasFeed = false → s.callable = true →
      feed s src = .calls src ∧ ∀ out, feed s src ≠ .writes out) := by
  constructor
  · cases s with
    | mk hf ty c w =>
      cases hf
      · cases ty with
        | exact b =>
          have hc : c = false := h rfl
          subst hc
          cases b <;> rfl
        | subclass b => cases c <;> cases w <;> rfl
        | otherT => cases c <;> cases w <;> rfl
      · rfl
  · constructor
    · intro hf
      simp [feed, hf]
    · intro hf hc
      have hreg : inRegistry s.ty = false := by
        by_contra hr
        simp only [Bool.not_eq_false] at hr
        rw [h hr] at hc
        exact Bool.false_ne_true hc
      cases s with
      | mk hf' ty c w =>
        simp only at hf hc
        subst hf hc
        cases ty <;> simp_all [feed, inRegistry]

/-- Witness for `feed_dispatch_order` at a concrete sink that is both
callable and write-capable. -/
theorem feed_dispatch_order_witness :
    feed ⟨false, .otherT, true, true⟩ [ItemV.str "a", ItemV.val "1"]
      = FeedEffect.calls [ItemV.str "a", ItemV.val "1"] :=
  ((feed_dispatch_order ⟨false, .otherT, true, true⟩
      [ItemV.str "a", ItemV.val "1"] (by decide)).2.2 rfl rfl).1

/-- C10: the container table matches on exact type only.  Under the
realizability constraint that a plain `list`/`set`/`None` object exposes
neither `__feed__` nor `__call__` (hypothesis `h`), a container-table
behaviour applies iff the sink's exact type is registered; a strict
subclass instance is never handled by the table, and (when it has no
`__feed__`) falls through to the callable, write, or bad-sink branch. -/
theorem feed_registry_exact_type (s : Sink) (src : List ItemV)
    (h : inRegistry s.ty = true → s.hasFeed = false ∧ s.callable = false) :
    (isContainerEffect (feed s src) = true ↔ ∃ b, s.ty = .exact b) ∧
    (∀ b, s.ty = .subclass b →
      isContainerEffect (feed s src) = false ∧
      (s.hasFeed = false →
        feed s src = .calls src ∨ feed s src = .writes (src.map render) ∨
        feed s src = .badSink)) := by
  constructor
  · constructor
    · intro hc
      cases s with
      | mk hf ty c w =>
        cases ty with
        | exact b => exact ⟨b, rfl⟩
        | subclass b =>
          exfalso
          cases hf <;> cases c <;> cases w <;>
            simp_all [feed, isContainerEffect]
        | otherT =>
          exfalso
          cases hf <;> cases c <;> cases w <;>
            simp_all [feed, isContainerEffect]
    · rintro ⟨b, hb⟩
      have hreg : inRegistry s.ty = true := by rw [hb]; rfl
      obtain ⟨hf, _⟩ := h hreg
      cases s with
      | mk hf' ty c w =>
        simp only at hf hb
        subst hf hb
        cases b <;> simp [feed, isContainerEffect]
  · intro b hb
    cases s with
    | mk hf ty c w =>
      simp only at hb
      subst hb
      constructor
      · cases hf <;> cases c <;> cases w <;> simp [feed, isContainerEffect]
      · intro hf'
        simp only at hf'
        subst hf'
        cases c <;> cases w <;> simp [feed]

/-- Witness for `feed_registry_exact_type` at a concrete strict-subclass
sink with a `write` method: it takes the write branch, not the container
table. -/
theorem feed_registry_exact_type_witness :
    isContainerEffect
      (feed ⟨false, .subclass .listB, false, true⟩ [ItemV.val "3"]) = false :=
  ((feed_registry_exact_type ⟨false, .subclass .listB, false, true⟩
      [ItemV.val "3"] (by decide)).2 .listB rfl).1

/-! ## The `Dataflow` pipeline (src/commander.py lines 333-398; the same
class, with `//` spelled for the compose operator, in src/dataflow.py
lines 170-209)

A stage passed to the `Dataflow` constructor is one of:
  * an iterable source (modelled by the list of items it yields),
  * a per-item callable filter,
  * a whole-stream filter (an object with `__filt__`),
  * a `Dataflow` instance itself (exact class), carrying its stage tuple.
-/

/-- A constructor argument of `Dataflow(*stages)`. -/
inductive Stage (α : Type) where
  | src (items : List α)
  | fn (f : α → α)
  | whole (f : List α → List α)
  | flow (stages : List (Stage α))

/-- One step of the constructor loop: a stage whose exact class is
`Dataflow` contributes its stage tuple (`flat.extend(stage.stages)`), any
other stage contributes itself (`flat.append(stage)`). -/
def flattenOne {α : Type} : Stage α → List (Stage α)
  | .flow ss => ss
  | s => [s]

/-- Shallow embedding of `Dataflow.__init__` (src/commander.py lines
362-369): the resulting `stages` tuple. -/
def mkDataflow {α : Type} : List (Stage α) → List (Stage α)
  | [] => []
  | s :: rest => flattenOne s ++ mkDataflow rest

/-- A stage that is not a `Dataflow` instance. -/
def isAtomStage {α : Type} : Stage α → Bool
  | .flow _ => false
  | _ => true

/-- A stage list containing no `Dataflow` instance. -/
def noFlow {α : Type} (l : List (Stage α)) : Bool :=
  l.all isAtomStage

/-- A well-formed constructor argument: any `Dataflow` passed in was itself
produced by the constructor, so its stage tuple is already flat. -/
def wfStage {α : Type} : Stage α → Bool
  | .flow ss => noFlow ss
  | _ => true

/-- A non-`Dataflow` stage, as stored in a flattened stage tuple. -/
inductive Atom (α : Type) where
  | src (items : List α)
  | fn (f : α → α)
  | whole (f : List α → List α)

/-- View of a flattened stage list as a list of atoms (`Dataflow` entries
cannot occur in a constructor-produced tuple and are dropped). -/
def toAtoms {α : Type} : List (Stage α) → List (Atom α)
  | [] => []
  | .src i :: r => .src i :: toAtoms r
  | .fn f :: r => .fn f :: toAtoms r
  | .whole f :: r => .whole f :: toAtoms r
  | .flow _ :: r => toAtoms r

/-- `iter(stage)` for an atomic stage: a source yields its items; calling
`iter` on a bare function object raises `TypeError`. -/
def iterAtom {α : Type} : Atom α → Option (List α)
  | .src l => some l
  | _ => none

/-- Denotation of `Dataflow.__filt__` (src/commander.py lines 383-393) on a
stage list given in reverse order, so that the head is the last stage.
`__filt__` peels off the last stage and applies it with `filt` to
`Dataflow(upstream, *stages[:-1])`; iterating that inner dataflow is
exactly applying the remaining (initial) stages to the upstream, which is
the recursive call.  A whole-stream last stage receives the whole stream; a
callable last stage is mapped item-wise; a source in filter position is a
`TypeError` (`filt: ... not a valid filter`). -/
def dfFiltRev {α : Type} : List (Atom α) → List α → Option (List α)
  | [], up => some up
  | .whole f :: init, up => (dfFiltRev init up).map f
  | .fn f :: init, up => (dfFiltRev init up).map (List.map f)
  | .src _ :: _, _ => none

/-- `Dataflow.__filt__` applied to a materialised upstream stream. -/
def dfFilt {α : Type} (stages : List (Atom α)) (up : List α) :
    Option (List α) :=
  dfFiltRev stages.reverse up

/-- Denotation of `Dataflow.__iter__` (src/commander.py lines 375-381):
empty tuple iterates to the empty stream; otherwise the first stage is
iterated and `Dataflow(*rest)` is applied to it as a filter. -/
def dfIter {α : Type} : List (Atom α) → Option (List α)
  | [] => some []
  | first :: rest => (iterAtom first).bind (fun s => dfFilt rest s)

/-- Iterating the `Dataflow` built by the constructor from the given
arguments. -/
def dataflowIterate {α : Type} (args : List (Stage α)) : Option (List α) :=
  dfIter (toAtoms (mkDataflow args))

/-- A non-`Dataflow` stage contributes itself to the constructor's tuple. -/
theorem flattenOne_of_atom {α : Type} (s : Stage α)
    (h : isAtomStage s = true) : flattenOne s = [s] := by
  cases s <;> simp_all [flattenOne, isAtomStage]

/-- A `Dataflow` stage contributes its stage tuple to the constructor. -/
theorem flattenOne_flow {α : Type} (ss : List (Stage α)) :
    flattenOne (Stage.flow ss) = ss := rfl

/-- Flattening one well-formed stage yields only non-`Dataflow` stages. -/
theorem noFlow_flattenOne {α : Type} (s : Stage α) (h : wfStage s = true) :
    noFlow (flattenOne s) = true := by
  cases s <;> simp_all [flattenOne, wfStage, noFlow, isAtomStage]

/-- The `all` predicate distributes over list append. -/
theorem noFlow_append {α : Type} (l₁ l₂ : List (Stage α)) :
    noFlow (l₁ ++ l₂) = (noFlow l₁ && noFlow l₂) := by
  simp [noFlow, List.all_append]

/-- C2: pipeline construction flattens and composition is associative.
`Pipeline(Pipeline(a, b), c)` and `Pipeline(a, Pipeline(b, c))` build the
same stage tuple; when `a`, `b`, `c` are ordinary (non-pipeline) stages
that tuple is exactly `(a, b, c)`; for well-formed inputs the tuple
contains no pipeline; and the item streams obtained by iterating the two
nestings are equal. -/
theorem pipeline_flatten_assoc {α : Type} (a b c : Stage α) :
    mkDataflow [Stage.flow (mkDataflow [a, b]), c]
      = mkDataflow [a, Stage.flow (mkDataflow [b, c])] ∧
    (isAtomStage a = true → isAtomStage b = true → isAtomStage c = true →
      mkDataflow [Stage.flow (mkDataflow [a, b]), c] = [a, b, c]) ∧
    (wfStage a = true → wfStage b = true → wfStage c = true →
      noFlow (mkDataflow [Stage.flow (mkDataflow [a, b]), c]) = true) ∧
    dataflowIterate [Stage.flow (mkDataflow [a, b]), c]
      = dataflowIterate [a, Stage.flow (mkDataflow [b, c])] := by
  have hmain :
      mkDataflow [Stage.flow (mkDataflow [a, b]), c]
        = mkDataflow [a, Stage.flow (mkDataflow [b, c])] := by
    simp [mkDataflow, flattenOne, List.append_assoc]
  refine ⟨hmain, ?_, ?_, ?_⟩
  · intro ha hb hc
    simp [mkDataflow, flattenOne_flow, flattenOne_of_atom a ha,
      flattenOne_of_atom b hb, flattenOne_of_atom c hc]
  · intro ha hb hc
    simp [mkDataflow, flattenOne_flow, noFlow_append,
      noFlow_flattenOne a ha, noFlow_flattenOne b hb, noFlow_flattenOne c hc]
  · unfold dataflowIterate
    rw [hmain]

/-- Witness for `pipeline_flatten_assoc` at concrete stages: a source, a
per-item filter and a whole-stream filter over natural numbers. -/
theorem pipeline_flatten_assoc_witness :
    mkDataflow [Stage.flow (mkDataflow
        [Stage.src [1, 2], Stage.fn (fun n : Nat => n + 1)]),
        Stage.whole (fun l : List Nat => l)]
      = [Stage.src [1, 2], Stage.fn (fun n : Nat => n + 1),
        Stage.whole (fun l : List Nat => l)] :=
  (pipeline_flatten_assoc (Stage.src [1, 2]) (Stage.fn (fun n => n + 1))
    (Stage.whole (fun l => l))).2.1 rfl rfl rfl

/-- Sanity check of the iteration semantics: a two-stage dataflow of a
source and a per-item filter maps the filter over the source items. -/
example :
    dataflowIterate [Stage.src [1, 2, 3], Stage.fn (fun n : Nat => n * 2)]
      = some [2, 4, 6] := rfl

/-! ## Argument flattening (src/commander.py lines 45-67,
`Subprocess._processargs`)

An argv tree node is a string, an iterable with children (carrying the text
`str(node)` would produce), or a non-iterable non-string value (likewise
carrying its `str(...)` text).
-/

/-- A node of the argv tree passed to `Subprocess._processargs`. -/
inductive Arg where
  | str (s : String)
  | iterable (r : String) (children : List Arg)
  | value (r : String)
deriving Repr

/-- The text `str(node)` produces for a node. -/
def pyStr : Arg → String
  | .str s => s
  | .iterable r _ => r
  | .value r => r

/-- Whether a node is a Python string. -/
def isStrArg : Arg → Bool
  | .str _ => true
  | _ => false

/-- Remove all trailing `'\n'` characters from a character list
(`arg.rstrip('\n')`). -/
def stripNlChars (l : List Char) : List Char :=
  (l.reverse.dropWhile (fun c => c == '\n')).reverse

/-- Remove all trailing `'\n'` characters from a string
(`arg.rstrip('\n')`). -/
def stripNl (s : String) : String :=
  ⟨stripNlChars s.data⟩

mutual

/-- Shallow embedding of the generator `recurse` inside `_processargs`
(src/commander.py lines 49-65), at one node.  A string is yielded, stripped
of trailing newlines when `depth > 1`; past the maximum depth a non-string
is yielded as `str(arg)`; otherwise an iterable is recursed into at
`depth + 1`, and a non-iterable (where `iter(arg)` raises `TypeError`) is
yielded as `str(arg)`. -/
def recurseArg (maxdepth depth : Nat) : Arg → List String
  | .str s => [if 1 < depth then stripNl s else s]
  | .iterable r children =>
      if maxdepth < depth then [r]
      else recurseList maxdepth (depth + 1) children
  | .value r => [r]

/-- The generator `recurse` over a list of sibling nodes. -/
def recurseList (maxdepth depth : Nat) : List Arg → List String
  | [] => []
  | a :: rest => recurseArg maxdepth depth a ++ recurseList maxdepth depth rest

end

/-- Shallow embedding of `Subprocess._processargs(args, maxdepth)`:
`list(recurse(args))` with the top level at depth 1.  The source's default
for `maxdepth` is 3. -/
def processargs (args : List Arg) (maxdepth : Nat) : List String :=
  recurseList maxdepth 1 args

mutual

/-- All nodes of an argv tree (the node itself and its descendants). -/
def subArgs : Arg → List Arg
  | .str s => [.str s]
  | .iterable r children => .iterable r children :: subArgsList children
  | .value r => [.value r]

/-- All nodes of a forest of argv trees. -/
def subArgsList : List Arg → List Arg
  | [] => []
  | a :: rest => subArgs a ++ subArgsList rest

end

mutual

/-- Depth of an argv tree node (a leaf has depth 1). -/
def argDepth : Arg → Nat
  | .str _ => 1
  | .iterable _ children => 1 + argsDepth children
  | .value _ => 1

/-- Depth of a forest of argv trees. -/
def argsDepth : List Arg → Nat
  | [] => 0
  | a :: rest => max (argDepth a) (argsDepth rest)

end

mutual

/-- Every string produced by `recurse` at a node is the text of some node
of that subtree: either its `str(...)` representation (covering unchanged
strings and coerced non-strings) or a newline-stripped string node. -/
theorem recurseArg_origin (md d : Nat) (a : Arg) (s : String)
    (h : s ∈ recurseArg md d a) :
    ∃ b, b ∈ subArgs a ∧
      (s = pyStr b ∨ ∃ t, b = Arg.str t ∧ s = stripNl t) := by
  cases a with
  | str t =>
    refine ⟨Arg.str t, by simp [subArgs], ?_⟩
    simp only [recurseArg, List.mem_singleton] at h
    by_cases hd : 1 < d
    · simp only [hd, if_true] at h
      exact Or.inr ⟨t, rfl, h⟩
    · simp only [hd, if_false] at h
      exact Or.inl (by simpa [pyStr] using h)
  | iterable r children =>
    by_cases hd : md < d
    · simp only [recurseArg, hd, if_true, List.mem_singleton] at h
      exact ⟨Arg.iterable r children, by simp [subArgs],
        Or.inl (by simpa [pyStr] using h)⟩
    · simp only [recurseArg, hd, if_false] at h
      obtain ⟨b, hb, hcase⟩ := recurseList_origin md (d + 1) children s h
      exact ⟨b, by simp [subArgs, hb], hcase⟩
  | value r =>
    refine ⟨Arg.value r, by simp [subArgs], ?_⟩
    simp only [recurseArg, List.mem_singleton] at h
    exact Or.inl (by simpa [pyStr] using h)

/-- Forest version of `recurseArg_origin`. -/
theorem recurseList_origin (md d : Nat) (l : List Arg) (s : String)
    (h : s ∈ recurseList md d l) :
    ∃ b, b ∈ subArgsList l ∧
      (s = pyStr b ∨ ∃ t, b = Arg.str t ∧ s = stripNl t) := by
  cases l with
  | nil => simp [recurseList] at h
  | cons a rest =>
    simp only [recurseList, List.mem_append] at h
    cases h with
    | inl h =>
      obtain ⟨b, hb, hc⟩ := recurseArg_origin md d a s h
      exact ⟨b, by simp [subArgsList, hb], hc⟩
    | inr h =>
      obtain ⟨b, hb, hc⟩ := recurseList_origin md d rest s h
      exact ⟨b, by simp [subArgsList, hb], hc⟩

end

/-- C3: argument flattening is total and yields only strings.  For every
argv tree (in particular those of depth at most `maxdepth + 1`),
`_processargs` terminates — the embedding is a total function into
`List String` — and every produced element is the text of some node of the
tree; and any non-string node encountered beyond the maximum depth is
coerced to its textual representation `str(item)` instead of being
recursed into. -/
theorem processargs_total (md : Nat) (args : List Arg)
    (hdepth : argsDepth args ≤ md + 1) :
    (∀ s ∈ processargs args md, ∃ b, b ∈ subArgsList args ∧
      (s = pyStr b ∨ ∃ t, b = Arg.str t ∧ s = stripNl t)) ∧
    (∀ (d : Nat) (a : Arg), md < d → isStrArg a = false →
      recurseArg md d a = [pyStr a]) := by
  constructor
  · intro s hs
    exact recurseList_origin md 1 args s hs
  · intro d a hmd ha
    cases a with
    | str t => simp [isStrArg] at ha
    | iterable r children => simp [recurseArg, pyStr, hmd]
    | value r => rfl

/-- Witness for `processargs_total`: a non-string node at depth 4 with
`maxdepth = 3` is coerced to its textual representation. -/
theorem processargs_total_witness :
    recurseArg 3 4 (Arg.iterable "[7]" [Arg.value "7"]) = ["[7]"] :=
  (processargs_total 3 [] (by decide)).2 4
    (Arg.iterable "[7]" [Arg.value "7"]) (by decide) rfl

/-- The first character surviving `dropWhile` does not satisfy the
predicate. -/
theorem head_dropWhile_false (p : Char → Bool) (l : List Char) :
    ∀ c, (l.dropWhile p).head? = some c → p c = false := by
  induction l with
  | nil => intro c h; simp [List.dropWhile] at h
  | cons a t ih =>
    intro c h
    by_cases hp : p a
    · rw [List.dropWhile_cons, if_pos hp] at h
      exact ih c h
    · rw [List.dropWhile_cons, if_neg hp] at h
      simp only [List.head?_cons, Option.some.injEq] at h
      subst h
      exact Bool.not_eq_true _ ▸ eq_false_of_ne_true hp

/-- C4: the newline-stripping contract.  A string node at depth at least 2
is emitted with all its trailing newline characters removed — the stripped
result has no trailing `'\n'`, and the original string is the stripped
result followed by some run of `'\n'` — while a string node at the top
level (depth 1) is emitted byte-for-byte unchanged. -/
theorem processargs_newline_strip (md : Nat) (s : String) :
    (∀ d, 2 ≤ d → recurseArg md d (Arg.str s) = [stripNl s]) ∧
    recurseArg md 1 (Arg.str s) = [s] ∧
    (∀ c, (stripNl s).data.getLast? = some c → c ≠ '\n') ∧
    (∃ k, s.data = (stripNl s).data ++ List.replicate k '\n') := by
  refine ⟨?_, ?_, ?_, ?_⟩
  · intro d hd
    have h1 : 1 < d := hd
    simp [recurseArg, h1]
  · simp [recurseArg]
  · intro c hc
    have hrev : (stripNl s).data.getLast?
        = (s.data.reverse.dropWhile (fun c => c == '\n')).head? := by
      simp [stripNl, stripNlChars, List.getLast?_reverse]
    rw [hrev] at hc
    have := head_dropWhile_false (fun c => c == '\n') s.data.reverse c hc
    simpa using this
  · refine ⟨(s.data.reverse.takeWhile (fun c => c == '\n')).length, ?_⟩
    have hrepl : s.data.reverse.takeWhile (fun c => c == '\n')
        = List.replicate
            (s.data.reverse.takeWhile (fun c => c == '\n')).length '\n' := by
      apply List.eq_replicate_of_mem
      intro b hb
      have := List.mem_takeWhile_imp hb
      simpa using this
    have hsplit : s.data.reverse.takeWhile (fun c => c == '\n')
        ++ s.data.reverse.dropWhile (fun c => c == '\n') = s.data.reverse :=
      List.takeWhile_append_dropWhile (fun c => c == '\n') s.data.reverse
    have hdecomp : s.data
        = (s.data.reverse.dropWhile (fun c => c == '\n')).reverse
          ++ (s.data.reverse.takeWhile (fun c => c == '\n')).reverse := by
      have h2 := congrArg List.reverse hsplit
      rw [List.reverse_append, List.reverse_reverse] at h2
      exact h2.symm
    conv_lhs => rw [hdecomp, hrepl]
    rw [List.reverse_replicate]
    rfl

/-- Witness for `processargs_newline_strip` at a concrete nested string
with two trailing newlines. -/
theorem processargs_newline_strip_witness :
    recurseArg 3 2 (Arg.str "ab\n\n") = [stripNl "ab\n\n"] :=
  (processargs_newline_strip 3 "ab\n\n").1 2 (by decide)

/-! ## The `Cmd` builder (src/commander.py lines 196-277)

A `Cmd` stores a positional argument list `self.args` and, in its instance
dictionary, a set of launch options.  Option values (and positional
arguments) are arbitrary Python values; we model the ones the claims need:
strings, integers and mappings.
-/

/-- A Python value stored in a `Cmd`: a string, an integer, or a mapping. -/
inductive Val where
  | str (s : String)
  | intV (n : Int)
  | mapV (entries : List (String × Val))

/-- Object describing an executable command: the `args` list plus the other
instance attributes (`vars(self)` minus `args`), an insertion-ordered
dictionary. -/
structure Cmd where
  args : List Val
  opts : List (String × Val)

/-- Dictionary assignment `d[k] = v` on an insertion-ordered dictionary
represented as an association list: an existing key keeps its position and
gets the new value, a new key is appended at the end. -/
def dictSet : List (String × Val) → String → Val → List (String × Val)
  | [], k, v => [(k, v)]
  | p :: rest, k, v =>
      if p.1 = k then (k, v) :: rest else p :: dictSet rest k v

/-- Dictionary update `d.update(u)`: assign every pair of `u` in order. -/
def dictUpdate (d u : List (String × Val)) : List (String × Val) :=
  u.foldl (fun acc p => dictSet acc p.1 p.2) d

/-- Dictionary lookup `d[k]`: the value of the first pair with the key. -/
def dictGet : List (String × Val) → String → Option Val
  | [], _ => none
  | p :: rest, k => if p.1 = k then some p.2 else dictGet rest k

/-- The value the last pair of `u` with key `k` carries, if any (what
wins in `d.update(u)` when `u` mentions `k` several times). -/
def lastValue : List (String × Val) → String → Option Val
  | [], _ => none
  | p :: rest, k =>
      match lastValue rest k with
      | some v => some v
      | none => if p.1 = k then some p.2 else none

/-- Shallow embedding of `Cmd._updateargs` (src/commander.py lines
242-250), which is also `Cmd.__call__`: copy `vars(self)`, pop `args` out
of the copy, update the remaining options with the new keyword arguments,
append the new positional arguments to `args`, and build the new `Cmd`
from the results.  Every positional argument is appended, whatever its
type. -/
def updateargs (c : Cmd) (newargs : List Val) (newkw : List (String × Val)) :
    Cmd :=
  { args := c.args ++ newargs, opts := dictUpdate c.opts newkw }

/-- Lookup after a single dictionary assignment. -/
theorem dictGet_dictSet (d : List (String × Val)) (k k' : String) (v : Val) :
    dictGet (dictSet d k v) k' = if k' = k then some v else dictGet d k' := by
  induction d with
  | nil =>
    by_cases h : k' = k
    · subst h
      simp [dictSet, dictGet]
    · simp [dictSet, dictGet, h, Ne.symm h]
  | cons p rest ih =>
    by_cases hpk : p.1 = k
    · by_cases h : k' = k
      · subst h
        simp [dictSet, dictGet, hpk]
      · have hp' : ¬p.1 = k' := by rw [hpk]; exact Ne.symm h
        simp [dictSet, dictGet, hpk, h, Ne.symm h, hp']
    · by_cases hpk' : p.1 = k'
      · have hk : ¬k' = k := fun hh => hpk (hpk'.trans hh)
        simp [dictSet, dictGet, hpk, hpk', hk]
      · simp [dictSet, dictGet, hpk, hpk', ih]

/-- Lookup after a dictionary update: the last pair of the update with the
key wins; a key the update does not mention keeps its old value. -/
theorem dictGet_dictUpdate (u d : List (String × Val)) (k : String) :
    dictGet (dictUpdate d u) k
      = match lastValue u k with
        | some v => some v
        | none => dictGet d k := by
  induction u generalizing d with
  | nil => simp [dictUpdate, lastValue]
  | cons p rest ih =>
    have hfold : dictUpdate d (p :: rest)
        = dictUpdate (dictSet d p.1 p.2) rest := by
      simp [dictUpdate, List.foldl_cons]
    rw [hfold, ih]
    simp only [lastValue]
    cases hrest : lastValue rest k with
    | some v => simp
    | none =>
      simp only
      rw [dictGet_dictSet]
      by_cases hk : k = p.1
      · simp [hk]
      · simp [hk, Ne.symm hk]

/-- C5 counterexample: the claim that a positional mapping argument merges
into the options instead of being appended fails on the code.  Calling a
`Cmd` whose `args` is `['x']` with the single positional mapping
`{'stdin': 'inp'}` yields `args == ['x', {'stdin': 'inp'}]`, not the
claimed `['x']`. -/
theorem updateargs_mapping_appended :
    ¬ ((updateargs ⟨[Val.str "x"], []⟩
        [Val.mapV [("stdin", Val.str "inp")]] []).args = [Val.str "x"]) := by
  intro h
  have hlen := congrArg List.length h
  simp [updateargs] at hlen

/-- C5 amended: `cmd(more_args..., option=value, ...)` returns a new `Cmd`
whose `args` is `cmd.args` extended with all positional arguments in
order — a mapping positional argument is appended like any other value,
not merged into the options — and whose options are `cmd`'s options
updated with the keyword arguments, last write winning; the original `Cmd`
value is unchanged (the embedding is a pure function of it). -/
theorem updateargs_extends_args_updates_opts (c : Cmd) (newargs : List Val)
    (newkw : List (String × Val)) :
    (updateargs c newargs newkw).args = c.args ++ newargs ∧
    ∀ k, dictGet (updateargs c newargs newkw).opts k
      = match lastValue newkw k with
        | some v => some v
        | none => dictGet c.opts k := by
  refine ⟨rfl, fun k => ?_⟩
  exact dictGet_dictUpdate newkw c.opts k

/-! ## Name sugar on the Cmd constructor
(src/commander.py lines 196-201, `CmdMeta.__getattr__`) -/

/-- The test `name.startswith('_')`: whether the first character of the
name is an underscore. -/
def startsWithUnderscore (s : String) : Bool :=
  match s.data with
  | [] => false
  | c :: _ => c == '_'

/-- Shallow embedding of `CmdMeta.__getattr__`: a name beginning with an
underscore raises `AttributeError` (modelled as `none`); any other name
yields `Cmd(name)` — the name itself, unmodified, as the single argv
element. -/
def getattrCmd (name : String) : Option Cmd :=
  if startsWithUnderscore name then none
  else some { args := [Val.str name], opts := [] }

/-- Modelled from the spec's words, for comparison with `getattrCmd`: the
name with underscores turned to dashes, which the spec says becomes the
argv element. -/
def specDashify (s : String) : String :=
  ⟨s.data.map (fun c => if c = '_' then '-' else c)⟩

/-- C6 counterexample: the claimed underscore-to-dash conversion does not
happen.  `Cmd.git_status` has argv `['git_status']`, not the
`['git-status']` the spec states. -/
theorem getattr_no_dash_conversion :
    ¬ ((getattrCmd "git_status").map Cmd.args
        = some [Val.str (specDashify "git_status")]) := by
  intro h
  have hval : (getattrCmd "git_status").map Cmd.args
      = some [Val.str "git_status"] := rfl
  rw [hval] at h
  simp only [Option.some.injEq, List.cons.injEq, Val.str.injEq] at h
  exact absurd h.1 (by decide)

/-- C6 amended: attribute access on the `Cmd` constructor with a name not
beginning with an underscore yields a `Cmd` whose argv is the
single-element list containing the name verbatim (no character
substitution); a name beginning with an underscore does not produce a
`Cmd` but fails with `AttributeError`. -/
theorem getattr_name_sugar (name : String) :
    (startsWithUnderscore name = false →
      (getattrCmd name).map Cmd.args = some [Val.str name]) ∧
    (startsWithUnderscore name = true → getattrCmd name = none) := by
  constructor <;> intro h <;> simp [getattrCmd, h]

/-- Witness for `getattr_name_sugar` at the concrete name `echo`. -/
theorem getattr_name_sugar_witness :
    (getattrCmd "echo").map Cmd.args = some [Val.str "echo"] :=
  (getattr_name_sugar "echo").1 rfl

/-! ## Façade starters (src/commander.py lines 252-262) -/

/-- The three façades a `Cmd` can start. -/
inductive Facade where
  | producerF
  | consumerF
  | subprocessF
deriving DecidableEq, Repr

/-- Shallow embedding of which façade `Cmd.consumer` starts
(src/commander.py lines 260-262): the body is
`return Producer(**vars(self))`, so it starts a `Producer` — the read-side
façade — whatever the command is. -/
def consumerMethod (_c : Cmd) : Facade := Facade.producerF

/-- C7: contrary to its docstring (`Start a Consumer subprocess`) and to
the claim, `Cmd.consumer()` starts and returns the read-side `Producer`
façade, not the write-side `Consumer` façade, as evaluated here on the
concrete command `Cmd('cat')`. -/
theorem consumer_returns_producer :
    consumerMethod ⟨[Val.str "cat"], []⟩ = Facade.producerF ∧
    Facade.producerF ≠ Facade.consumerF :=
  ⟨rfl, by decide⟩

/-! ## Exit-code policy (src/subprocess2.py lines 17-28) -/

/-- The stored command summary `self._cmd`:
`subprocess.list2cmdline(args)[:200]` (src/subprocess2.py line 21).
`list2cmdline` is Python standard library; its output is abstracted as the
full representation string, of which the code keeps the first 200
characters. -/
def storedCmdRepr (fullRepr : String) : String :=
  ⟨fullRepr.data.take 200⟩

/-- Shallow embedding of `Subprocess._handle_exitstatus`
(src/subprocess2.py lines 24-28), after the base class has recorded
`returncode`: with `_errorlevel` set, raise
`CalledProcessError(returncode, _cmd)` exactly when
`returncode >= errorlevel or returncode < 0`; with it unset (`None`),
never raise.  The raised error, carrying the code and the stored command
summary, is modelled as the `some` result. -/
def handleExitstatus (errorlevel : Option Int) (cmd : String)
    (returncode : Int) : Option (Int × String) :=
  match errorlevel with
  | none => none
  | some el =>
      if returncode ≥ el ∨ returncode < 0 then some (returncode, cmd)
      else none

/-- C8: the exit-code policy.  With the error level set, reaping fails —
carrying the exit code and the stored command summary, itself at most 200
characters — exactly when the child's return code is negative (signalled)
or at least the error level; with the error level unset, no return code
causes a failure. -/
theorem error_level_policy (el : Int) (fullRepr : String) (rc : Int) :
    (handleExitstatus (some el) (storedCmdRepr fullRepr) rc
        = some (rc, storedCmdRepr fullRepr) ↔ rc < 0 ∨ el ≤ rc) ∧
    handleExitstatus none (storedCmdRepr fullRepr) rc = none ∧
    (storedCmdRepr fullRepr).data.length ≤ 200 := by
  refine ⟨?_, rfl, ?_⟩
  · constructor
    · intro h
      by_cases hc : rc ≥ el ∨ rc < 0
      · cases hc with
        | inl hge => exact Or.inr hge
        | inr hlt => exact Or.inl hlt
      · simp [handleExitstatus, hc] at h
    · intro h
      have hc : rc ≥ el ∨ rc < 0 := by
        cases h with
        | inl hlt => exact Or.inr hlt
        | inr hge => exact Or.inl hge
      simp [handleExitstatus, hc]
  · exact List.length_take_le 200 fullRepr.data

/-! ## The `_RawIterIO` reader (src/commander.py lines 98-128; the same
class on `io.TextIOWrapper`, with identical `sourcereader` and `read`
bodies, in src/subprocess2.py lines 89-120)

The object state after construction consists of the generator
`self.iterator` — the not-yet-yielded transformed items, followed by an
infinite tail of `''` — and `self.remainder`.  We model the generator by
the list of remaining transformed item strings (the infinite `''` tail is
what `next` returns once that list is empty).
-/

/-- State of a `_RawIterIO` object: the transformed items the generator has
not yielded yet, and `self.remainder`. -/
structure RState where
  queue : List String
  rem : Option String
deriving DecidableEq, Repr

/-- State right after `_RawIterIO.__init__(iterable)`: `sourcereader`
transforms each item — a non-string `x` becomes `'%s\n' % x`, a string
passes unchanged — and `remainder` is `None`. -/
def initRawIter (items : List ItemV) : RState :=
  ⟨items.map render, none⟩

/-- Truthiness of `self.remainder` in `if self.remainder:`: `None` and the
empty string are falsy. -/
def truthyRem : Option String → Bool
  | none => false
  | some s =>
      match s.data with
      | [] => false
      | _ :: _ => true

/-- First phase of `_RawIterIO.read(n)` (src/commander.py lines 117-121):
`data` is the pending remainder if truthy (clearing it), else
`next(self.iterator)` — the next queued string, or `''` forever once the
queue is drained. -/
def rawPull (st : RState) : String × RState :=
  if truthyRem st.rem then
    (st.rem.getD "", ⟨st.queue, none⟩)
  else
    match st.queue with
    | [] => ("", ⟨[], st.rem⟩)
    | h :: t => (h, ⟨t, st.rem⟩)

/-- Second phase of `_RawIterIO.read(n)` (src/commander.py lines 122-124):
if `n is not None and 0 < n < len(data)`, return the first `n` characters
of the pulled data and stash the rest as the new remainder. -/
def rawSplit (n : Option Int) (p : String × RState) : String × RState :=
  match n with
  | none => p
  | some m =>
      if 0 < m ∧ m < (p.1.data.length : Int) then
        (⟨p.1.data.take m.toNat⟩,
          ⟨p.2.queue, some ⟨p.1.data.drop m.toNat⟩⟩)
      else p

/-- Shallow embedding of `_RawIterIO.read(n)` (src/commander.py lines
115-124): returned data and successor state. -/
def rawRead (n : Option Int) (st : RState) : String × RState :=
  rawSplit n (rawPull st)

/-- Termination measure of a reader state: total pending characters plus
one per pending chunk. -/
def muState (st : RState) : Nat :=
  (st.queue.map (fun s => s.data.length + 1)).sum
    + (match st.rem with
       | none => 0
       | some s => s.data.length + 1)

/-- Repeated reading: call `read(ns 0)`, `read(ns 1)`, ... until a read
returns the empty string, collecting the non-empty results.  `fuel` bounds
the number of reads; any `fuel ≥ muState st` is enough to reach the empty
string (`drain_join` below is proved under that bound). -/
def drain (ns : Nat → Int) : Nat → RState → Nat → List String
  | 0, _, _ => []
  | fuel + 1, st, i =>
      let r := rawRead (some (ns i)) st
      if r.1 = "" then [] else r.1 :: drain ns fuel r.2 (i + 1)

/-- Characters of the concatenation of a list of strings. -/
def joinChars : List String → List Char
  | [] => []
  | s :: rest => s.data ++ joinChars rest

/-- Concatenation of a list of strings. -/
def strConcat (l : List String) : String :=
  ⟨joinChars l⟩

/-- The characters a reader state has not yet delivered: the truthy
remainder (if any) followed by the queued chunks. -/
def contentChars (st : RState) : List Char :=
  (if truthyRem st.rem then (st.rem.getD "").data else []) ++ joinChars st.queue

/-- A string is empty iff its character list is. -/
theorem string_eq_empty_iff (s : String) : s = "" ↔ s.data = [] := by
  obtain ⟨d⟩ := s
  constructor
  · intro h
    exact congrArg String.data h
  · intro h
    subst h
    rfl

/-- A pending remainder is truthy iff it is a nonempty string. -/
theorem truthyRem_some_true (s : String) :
    truthyRem (some s) = true ↔ s.data ≠ [] := by
  cases h : s.data with
  | nil => simp [truthyRem, h]
  | cons c t => simp [truthyRem, h]

/-- The absent remainder is falsy. -/
theorem truthyRem_none : truthyRem none = false := rfl

/-- Pulling one chunk conserves the pending characters. -/
theorem rawPull_content (st : RState) :
    contentChars st = (rawPull st).1.data ++ contentChars (rawPull st).2 := by
  obtain ⟨q, rm⟩ := st
  by_cases hr : truthyRem rm = true
  · simp [rawPull, hr, contentChars, truthyRem_none]
  · rw [Bool.not_eq_true] at hr
    cases q with
    | nil => simp [rawPull, hr, contentChars]
    | cons h t => simp [rawPull, hr, contentChars, joinChars]

/-- After a pull the stored remainder is falsy (either cleared or left as
a falsy value). -/
theorem rawPull_rem_falsy (st : RState) :
    truthyRem (rawPull st).2.rem = false := by
  obtain ⟨q, rm⟩ := st
  by_cases hr : truthyRem rm = true
  · simp [rawPull, hr, truthyRem_none]
  · rw [Bool.not_eq_true] at hr
    cases q <;> simp [rawPull, hr]

/-- A pull only ever removes chunks from the queue. -/
theorem rawPull_queue_sub (st : RState) :
    ∀ s ∈ (rawPull st).2.queue, s ∈ st.queue := by
  obtain ⟨q, rm⟩ := st
  by_cases hr : truthyRem rm = true
  · simp [rawPull, hr]
  · rw [Bool.not_eq_true] at hr
    cases q with
    | nil => simp [rawPull, hr]
    | cons h t =>
      intro s hs
      simp [rawPull, hr] at hs
      exact List.mem_cons_of_mem _ hs

/-- A pull that returns data accounts for its measure exactly. -/
theorem rawPull_mu (st : RState) (h : (rawPull st).1 ≠ "") :
    muState st = (rawPull st).1.data.length + muState (rawPull st).2 + 1 := by
  obtain ⟨q, rm⟩ := st
  by_cases hr : truthyRem rm = true
  · obtain ⟨r, hrm⟩ : ∃ r, rm = some r := by
      cases rm with
      | none => simp [truthyRem] at hr
      | some r => exact ⟨r, rfl⟩
    subst hrm
    simp [rawPull, hr, muState]
    omega
  · rw [Bool.not_eq_true] at hr
    cases q with
    | nil => exact absurd (by simp [rawPull, hr]) h
    | cons hd t =>
      simp [rawPull, hr, muState]
      omega

/-- Splitting conserves the data: the returned prefix followed by the
pending characters of the successor state is the pulled data followed by
the pending characters of the pre-split state (whose remainder slot is
falsy, as it always is right after a pull). -/
theorem rawSplit_content (n : Option Int) (p : String × RState)
    (hp : truthyRem p.2.rem = false) :
    (rawSplit n p).1.data ++ contentChars (rawSplit n p).2
      = p.1.data ++ contentChars p.2 := by
  cases n with
  | none => rfl
  | some m =>
    by_cases hm : 0 < m ∧ m < (p.1.data.length : Int)
    · have hdrop : p.1.data.drop m.toNat ≠ [] := by
        intro hd
        have hlen := congrArg List.length hd
        rw [List.length_drop, List.length_nil] at hlen
        omega
      have htr : truthyRem (some (⟨p.1.data.drop m.toNat⟩ : String)) = true :=
        (truthyRem_some_true _).mpr hdrop
      simp only [rawSplit]
      rw [if_pos hm]
      simp only [contentChars, htr, if_true, hp, Bool.false_eq_true, if_false,
        Option.getD_some]
      rw [← List.append_assoc, List.take_append_drop]
      simp
    · simp only [rawSplit]
      rw [if_neg hm]

/-- Splitting never touches the queue. -/
theorem rawSplit_queue (n : Option Int) (p : String × RState) :
    (rawSplit n p).2.queue = p.2.queue := by
  cases n with
  | none => rfl
  | some m =>
    simp only [rawSplit]
    by_cases hm : 0 < m ∧ m < (p.1.data.length : Int)
    · rw [if_pos hm]
    · rw [if_neg hm]

/-- The measure after a split is bounded by the pre-split measure plus the
pulled data (the stash can only re-add part of the pulled chunk). -/
theorem rawSplit_mu (n : Option Int) (p : String × RState) :
    muState (rawSplit n p).2 ≤ muState p.2 + p.1.data.length := by
  cases n with
  | none => exact Nat.le_add_right _ _
  | some m =>
    simp only [rawSplit]
    by_cases hm : 0 < m ∧ m < (p.1.data.length : Int)
    · rw [if_pos hm]
      show (p.2.queue.map (fun s => s.data.length + 1)).sum
          + (p.1.data.drop m.toNat).length + 1
        ≤ muState p.2 + p.1.data.length
      simp only [muState, List.length_drop]
      omega
    · rw [if_neg hm]
      exact Nat.le_add_right _ _

/-- An empty pull yields an empty read. -/
theorem rawSplit_empty (n : Option Int) (p : String × RState)
    (h0 : p.1 = "") : (rawSplit n p).1 = "" := by
  cases n with
  | none => exact h0
  | some m =>
    have hlen : (p.1.data.length : Int) = 0 := by rw [h0]; rfl
    have hc : ¬(0 < m ∧ m < (p.1.data.length : Int)) := by
      rw [hlen]
      intro hcc
      omega
    simp only [rawSplit]
    rw [if_neg hc]
    exact h0

/-- A nonempty pull yields a nonempty read. -/
theorem rawSplit_ne_empty (n : Option Int) (p : String × RState)
    (hne : p.1 ≠ "") : (rawSplit n p).1 ≠ "" := by
  cases n with
  | none => exact hne
  | some m =>
    simp only [rawSplit]
    by_cases hm : 0 < m ∧ m < (p.1.data.length : Int)
    · rw [if_pos hm]
      show ¬((⟨List.take m.toNat p.1.data⟩ : String) = "")
      intro hh
      have hd : List.take m.toNat p.1.data = [] := congrArg String.data hh
      have hlen := congrArg List.length hd
      rw [List.length_take, List.length_nil] at hlen
      rcases Nat.min_eq_zero_iff.mp hlen with h0 | h0 <;> omega
    · rw [if_neg hm]
      exact hne

/-- A read with a positive size returns at most that many characters. -/
theorem rawRead_length_le (m : Int) (st : RState) (hm : 0 < m) :
    ((rawRead (some m) st).1.data.length : Int) ≤ m := by
  unfold rawRead
  simp only [rawSplit]
  by_cases hc : 0 < m ∧ m < ((rawPull st).1.data.length : Int)
  · rw [if_pos hc]
    show ((List.take m.toNat (rawPull st).1.data).length : Int) ≤ m
    have h1 : (List.take m.toNat (rawPull st).1.data).length ≤ m.toNat := by
      rw [List.length_take]
      exact Nat.min_le_left _ _
    omega
  · rw [if_neg hc]
    omega

/-- Reading conserves the pending characters. -/
theorem rawRead_content (n : Option Int) (st : RState) :
    contentChars st = (rawRead n st).1.data ++ contentChars (rawRead n st).2 := by
  unfold rawRead
  rw [rawPull_content st]
  exact (rawSplit_content n (rawPull st) (rawPull_rem_falsy st)).symm

/-- A read that returns data strictly decreases the measure. -/
theorem rawRead_mu (n : Option Int) (st : RState)
    (h : (rawRead n st).1 ≠ "") :
    muState (rawRead n st).2 < muState st := by
  have hpull : (rawPull st).1 ≠ "" := by
    intro h0
    exact h (rawSplit_empty n (rawPull st) h0)
  have h1 := rawPull_mu st hpull
  have h2 := rawSplit_mu n (rawPull st)
  unfold rawRead
  omega

/-- Reading only ever removes chunks from the queue. -/
theorem rawRead_queue_sub (n : Option Int) (st : RState) :
    ∀ s ∈ (rawRead n st).2.queue, s ∈ st.queue := by
  intro s hs
  unfold rawRead at hs
  rw [rawSplit_queue] at hs
  exact rawPull_queue_sub st s hs

/-- If every queued chunk is nonempty, a read that returns the empty
string certifies that nothing is pending. -/
theorem rawRead_empty_content (n : Option Int) (st : RState)
    (hq : ∀ s ∈ st.queue, s ≠ "") (h : (rawRead n st).1 = "") :
    contentChars st = [] := by
  have hpull : (rawPull st).1 = "" := by
    by_contra hne
    exact rawSplit_ne_empty n (rawPull st) hne h
  obtain ⟨q, rm⟩ := st
  by_cases hr : truthyRem rm = true
  · exfalso
    obtain ⟨r, hrm⟩ : ∃ r, rm = some r := by
      cases rm with
      | none => simp [truthyRem] at hr
      | some r => exact ⟨r, rfl⟩
    subst hrm
    have hrd : r.data ≠ [] := (truthyRem_some_true r).mp hr
    apply hrd
    have hpr : (rawPull ⟨q, some r⟩).1 = r := by simp [rawPull, hr]
    rw [hpr] at hpull
    exact congrArg String.data hpull
  · rw [Bool.not_eq_true] at hr
    cases q with
    | nil => simp [contentChars, hr, joinChars]
    | cons hd t =>
      exfalso
      have hpr : (rawPull ⟨hd :: t, rm⟩).1 = hd := by simp [rawPull, hr]
      rw [hpr] at hpull
      exact hq hd (by simp) hpull

/-- Draining with enough fuel collects exactly the pending characters,
provided every queued chunk is nonempty (so that an empty read really
means exhaustion). -/
theorem drain_join (ns : Nat → Int) (fuel : Nat) (st : RState) (i : Nat)
    (hfuel : muState st ≤ fuel) (hq : ∀ s ∈ st.queue, s ≠ "") :
    joinChars (drain ns fuel st i) = contentChars st := by
  induction fuel generalizing st i with
  | zero =>
    have h0 : muState st = 0 := Nat.le_zero.mp hfuel
    obtain ⟨q, rm⟩ := st
    cases q with
    | cons hd t =>
      exfalso
      simp only [muState, List.map_cons, List.sum_cons] at h0
      omega
    | nil =>
      cases rm with
      | some r =>
        exfalso
        simp only [muState, List.map_nil, List.sum_nil] at h0
        omega
      | none => simp [drain, contentChars, truthyRem_none, joinChars]
  | succ fuel ih =>
    by_cases hres : (rawRead (some (ns i)) st).1 = ""
    · have hc := rawRead_empty_content (some (ns i)) st hq hres
      simp [drain, hres, joinChars, hc]
    · have hmu := rawRead_mu (some (ns i)) st hres
      have hq' : ∀ s ∈ (rawRead (some (ns i)) st).2.queue, s ≠ "" :=
        fun s hs => hq s (rawRead_queue_sub (some (ns i)) st s hs)
      have hfuel' : muState (rawRead (some (ns i)) st).2 ≤ fuel := by omega
      simp only [drain]
      rw [if_neg hres]
      simp only [joinChars]
      rw [ih (rawRead (some (ns i)) st).2 (i + 1) hfuel' hq']
      exact (rawRead_content (some (ns i)) st).symm

/-- C9 amended: the read contract of `_RawIterIO`, for finite iterables
none of whose items is the empty string.  Reading with any sequence of
positive sizes until the empty string is returned concatenates to exactly
the transformed items — every non-string `x` replaced by `'%s\n' % x`,
every (nonempty) string item passed through unchanged; each `read(n)` with
`n > 0` returns at most `n` characters; and once the source is exhausted
(queue drained, remainder falsy) every read returns the empty string. -/
theorem rawiter_read_contract (items : List ItemV) (ns : Nat → Int)
    (fuel : Nat) (hns : ∀ i, 0 < ns i)
    (hitems : ∀ s, ItemV.str s ∈ items → s ≠ "")
    (hfuel : muState (initRawIter items) ≤ fuel) :
    strConcat (drain ns fuel (initRawIter items) 0)
      = strConcat (items.map render) ∧
    (∀ (m : Int) (st : RState), 0 < m →
      ((rawRead (some m) st).1.data.length : Int) ≤ m) ∧
    (∀ st : RState, st.queue = [] → truthyRem st.rem = false →
      ∀ n, (rawRead n st).1 = "") := by
  refine ⟨?_, ?_, ?_⟩
  · have hq : ∀ s ∈ (initRawIter items).queue, s ≠ "" := by
      intro s hs
      simp only [initRawIter, List.mem_map] at hs
      obtain ⟨it, hit, heq⟩ := hs
      cases it with
      | str t =>
        rw [← heq]
        exact hitems t hit
      | val r =>
        rw [← heq]
        simp only [render]
        intro hcontra
        have hd := congrArg String.data hcontra
        rw [String.data_append] at hd
        simp at hd
    have h1 := drain_join ns fuel (initRawIter items) 0 hfuel hq
    have h2 : contentChars (initRawIter items)
        = joinChars (items.map render) := by
      simp [initRawIter, contentChars, truthyRem_none]
    unfold strConcat
    rw [h1, h2]
  · intro m st hm
    exact rawRead_length_le m st hm
  · intro st hq0 hr0 n
    have hpull : (rawPull st).1 = "" := by
      obtain ⟨q, rm⟩ := st
      replace hq0 : q = [] := hq0
      replace hr0 : truthyRem rm = false := hr0
      subst hq0
      simp [rawPull, hr0]
    exact rawSplit_empty n (rawPull st) hpull

/-- Witness for `rawiter_read_contract` at a concrete two-item source (a
nonempty string and a non-string value) read three characters at a time. -/
theorem rawiter_read_contract_witness :
    strConcat (drain (fun _ => (3 : Int)) 6
        (initRawIter [ItemV.str "ab", ItemV.val "7"]) 0)
      = strConcat ([ItemV.str "ab", ItemV.val "7"].map render) :=
  (rawiter_read_contract [ItemV.str "ab", ItemV.val "7"] (fun _ => 3) 6
    (by
      intro i
      show (0 : Int) < 3
      decide)
    (by
      intro s hs
      simp at hs
      subst hs
      decide)
    (by decide)).1

/-- C9 counterexample: with an empty-string item the claim fails as
stated.  Feeding the items `['', 'a']` and reading with size 1 until the
empty string is returned stops at once — the very first read returns the
empty-string item — so the concatenation of the reads is `''`, not the
concatenation `'a'` of the items. -/
theorem rawiter_empty_item_cex :
    drain (fun _ => (1 : Int)) 8
        (initRawIter [ItemV.str "", ItemV.str "a"]) 0 = [] ∧
    strConcat (drain (fun _ => (1 : Int)) 8
        (initRawIter [ItemV.str "", ItemV.str "a"]) 0)
      ≠ strConcat ([ItemV.str "", ItemV.str "a"].map render) := by
  constructor
  · rfl
  · decide
